import Mathlib

/-!
A shallow embedding of the ion markup parser (`src/src/parser.rs` of the
anixe/ion repository) together with proofs about its behaviour.

The Rust parser walks a `Peekable<CharIndices>` cursor over the input
string.  Here the cursor is modelled as the list of characters not yet
consumed (`rest`) plus the number of characters already consumed
(`consumed`); slices extracted by the Rust code are contiguous chunks of
`rest`, so every slicing primitive of the source is reproduced as a list
function.  Error offsets are character offsets (the inputs of interest are
ASCII, where character and byte offsets agree).  The element-producer and
value-grammar loops are given explicit fuel; callers hand them enough fuel
for the whole input, and every theorem that quantifies over fuel holds for
every fuel value.
-/

namespace Ion

/-- Modelled from the spec: the `Value` tagged union of the data model
(string / integer / float / boolean / array / ordered dictionary).  The
`Float` constructor keeps the rendered literal text `"<int>.<frac>"` (or
just the digit run): Rust's `f64` parse never fails on such text, so the
text itself is a faithful stand-in for the parsed float. -/
inductive Value where
  | String : String → Value
  | Integer : Int → Value
  | Float : String → Value
  | Boolean : Bool → Value
  | Array : List Value → Value
  | Dictionary : List (String × Value) → Value

/-- The transient syntactic element produced by the element producer
(`enum Element` in the source). -/
inductive Element where
  | Section : String → Element
  | Row : List Value → Element
  | Entry : String → Value → Element
  | Comment : String → Element

/-- Modelled from the spec: one named block of the document, a key/value
dictionary plus a list of table rows (`Section` lives outside
`src/src/parser.rs`; the parser only ever builds it empty and pushes into
its two fields). -/
structure Section where
  dictionary : List (String × Value)
  rows : List (List Value)

/-- A recorded parse error (`struct ParserError` in the source). -/
structure ParserError where
  lo : Nat
  hi : Nat
  desc : String

/-- The parser state (`struct Parser` in the source): the unconsumed
characters, the number of consumed characters, the accumulated errors and
the optional section filter.  The capacity hints of the source are pure
performance knobs and carry no semantics. -/
structure PState where
  rest : List Char
  consumed : Nat
  errors : List ParserError
  acceptedSections : Option (List String)

/-- Build a parser without a filter (`Parser::new`). -/
def mkP (s : String) : PState :=
  { rest := s.data, consumed := 0, errors := [], acceptedSections := none }

/-- Build a parser with a section filter (`Parser::new_filtered`). -/
def mkPF (s : String) (l : List String) : PState :=
  { rest := s.data, consumed := 0, errors := [], acceptedSections := some l }

/-- Consume one character (`self.cur.next()` ignoring the returned pair). -/
def advance1 (p : PState) : PState :=
  match p.rest with
  | [] => p
  | _ :: cs => { p with rest := cs, consumed := p.consumed + 1 }

/-- Reposition the cursor on a suffix `r` of `p.rest`, accounting the
consumed characters. -/
def advanceTo (p : PState) (r : List Char) : PState :=
  { p with rest := r, consumed := p.consumed + (p.rest.length - r.length) }

/-- Record an error (`Parser::add_error`): the location is the offset of
the next unconsumed character (or the input length at end of input) and of
the one after it. -/
def add_error (msg : String) (p : PState) : PState :=
  { p with errors := p.errors ++ [⟨p.consumed, p.consumed + min 1 p.rest.length, msg⟩] }

/-- Characters skipped by `Parser::whitespace` (space and tab). -/
def isWsChar (c : Char) : Bool := c = '\t' || c = ' '

/-- Maximal space/tab run dropped from the front of a character list. -/
def dropWs : List Char → List Char
  | [] => []
  | c :: cs => if isWsChar c then dropWs cs else c :: cs

/-- `Parser::whitespace`: consume the run of spaces and tabs. -/
def whitespace (p : PState) : PState := advanceTo p (dropWs p.rest)

/-- `Parser::newline`: consume `\n`, or `\r` optionally followed by `\n`;
report whether a newline was consumed. -/
def newline (p : PState) : Bool × PState :=
  match p.rest with
  | '\n' :: _ => (true, advance1 p)
  | '\r' :: rest2 =>
    match rest2 with
    | '\n' :: _ => (true, advance1 (advance1 p))
    | _ => (true, advance1 p)
  | _ => (false, p)

/-- The characters consumed by `Parser::skip_line`
(`self.cur.by_ref().find(|&(_, c)| c != '\n')`): the iterator's `find`
pulls items until the predicate holds, so the leading run of `\n`
characters and the first character differing from `\n` are consumed. -/
def dropLineChars : List Char → List Char
  | [] => []
  | c :: cs => if c = '\n' then dropLineChars cs else cs

/-- `Parser::skip_line`. -/
def skip_line (p : PState) : PState := advanceTo p (dropLineChars p.rest)

/-- `Parser::eat`: consume the next character when it equals `ch`. -/
def eat (ch : Char) (p : PState) : Bool × PState :=
  match p.rest with
  | c :: _ => if c = ch then (true, advance1 p) else (false, p)
  | [] => (false, p)

/-- Scan for `ch` returning the chunk up to and including it (or the whole
list when `ch` is absent) together with the characters after it. -/
def spanIncl (ch : Char) : List Char → List Char × List Char
  | [] => ([], [])
  | c :: cs =>
    if c = ch then ([c], cs)
    else
      let t := spanIncl ch cs
      (c :: t.1, t.2)

/-- `Parser::slice_to_including`: `None` only at end of input, otherwise
the slice from the current position up to and including the first `ch`
(or the remainder of the input when `ch` never occurs). -/
def slice_to_including (ch : Char) (p : PState) : Option (List Char) × PState :=
  match p.rest with
  | [] => (none, p)
  | _ :: _ =>
    let t := spanIncl ch p.rest
    (some t.1, advanceTo p t.2)

/-- Escape-aware scan of `Parser::slice_to_excluding`'s inner loop: stop at
the first `ch` whose predecessor is not a backslash; return the chunk
before it and the characters after it (the delimiter itself is consumed). -/
def spanExcl (ch : Char) (prev : Char) : List Char → List Char × List Char
  | [] => ([], [])
  | c :: cs =>
    if c = ch ∧ prev ≠ '\\' then ([], cs)
    else
      let t := spanExcl ch c cs
      (c :: t.1, t.2)

/-- `Parser::slice_to_excluding`: `None` only at end of input; an immediate
`ch` yields the empty slice; otherwise the slice runs to the first
unescaped `ch` (exclusive) or to the end of input when none occurs. -/
def slice_to_excluding (ch : Char) (p : PState) : Option (List Char) × PState :=
  match p.rest with
  | [] => (none, p)
  | c :: cs =>
    if c = ch then (some [], advance1 p)
    else
      let t := spanExcl ch c cs
      (some (c :: t.1), advanceTo p t.2)

/-- `Parser::slice_while`: the maximal non-empty run satisfying the
predicate; a zero-length match is no match. -/
def slice_while (f : Char → Bool) (p : PState) : Option (List Char) × PState :=
  match p.rest with
  | [] => (none, p)
  | c :: _ =>
    if f c then (some (p.rest.takeWhile f), advanceTo p (p.rest.dropWhile f))
    else (none, p)

/-- `Parser::section_name`: consume `[`, skip whitespace, then collect the
characters up to `]`; the iterator's `take_while` also consumes the `]`
itself (or everything when `]` never occurs). -/
def section_name (p : PState) : String × PState :=
  let p1 := (eat '[' p).2
  let p2 := whitespace p1
  let nm := p2.rest.takeWhile (fun c => c ≠ ']')
  (String.mk nm, advanceTo p2 ((p2.rest.dropWhile (fun c => c ≠ ']')).drop 1))

/-- The characters admitted in a key by `Parser::key_name`
(`'a'..='z' | 'A'..='Z' | '0'..='9' | '_' | '-'`). -/
def isKeyChar (c : Char) : Bool := c.isAlphanum || c = '_' || c = '-'

/-- `Parser::key_name`. -/
def key_name (p : PState) : Option String × PState :=
  let t := slice_while isKeyChar p
  (t.1.map String.mk, t.2)

/-- `Parser::keyval_sep`: skip whitespace, require a literal `=`, skip
whitespace after it.  No error is recorded on failure. -/
def keyval_sep (p : PState) : Bool × PState :=
  let p1 := whitespace p
  let t := eat '=' p1
  if t.1 then (true, whitespace t.2) else (false, t.2)

/-- `Parser::boolean`: literal match of `true` / `false` at the current
position, consuming exactly 4 resp. 5 characters on success. -/
def boolean (p : PState) : Option Value × PState :=
  if p.rest.take 4 = ['t', 'r', 'u', 'e'] then
    (some (Value.Boolean true), advanceTo p (p.rest.drop 4))
  else if p.rest.take 5 = ['f', 'a', 'l', 's', 'e'] then
    (some (Value.Boolean false), advanceTo p (p.rest.drop 5))
  else (none, p)

/-- `Parser::integer`: a maximal non-empty ASCII digit run. -/
def integer (p : PState) : Option String × PState :=
  let t := slice_while Char.isDigit p
  (t.1.map String.mk, t.2)

/-- Rust's `str::parse::<i64>` restricted to the unsigned digit runs
produced by `integer`: the numeric value when it fits in `i64`, `None` on
overflow (or on an empty string). -/
def parseI64 (s : String) : Option Int :=
  if s.data = [] then none
  else if s.data.all Char.isDigit then
    let n := s.data.foldl (fun n c => n * 10 + (c.toNat - 48)) 0
    if n ≤ 2 ^ 63 - 1 then some (Int.ofNat n) else none
  else none

/-- `Parser::number`.  Note the source's `Some(self.integer())?`: the `?`
is applied to an always-`Some` value, so a missing digit run after the
dot does not fail the production; the rendered text is just the integer
part and is parsed (successfully) as a float. -/
def number (p : PState) : Option Value × PState :=
  match integer p with
  | (none, p) => (none, p)
  | (some intPart, p) =>
    let t := eat '.' p
    if t.1 then
      match integer t.2 with
      | (dec, p) =>
        let s := match dec with
          | some d => intPart ++ "." ++ d
          | none => intPart
        (some (Value.Float s), p)
    else
      (parseI64 intPart |>.map Value.Integer, t.2)

/-- One pass of Rust's `str::replace` for a two-character pattern `a b`
replaced by the single character `r`, left to right, non-overlapping. -/
def replace2 (a b r : Char) : List Char → List Char
  | c1 :: c2 :: cs =>
    if c1 = a ∧ c2 = b then r :: replace2 a b r cs
    else c1 :: replace2 a b r (c2 :: cs)
  | l => l

/-- The unescaping applied by `Parser::finish_string`:
`\\` then `\n` then `\"`, in the source's order. -/
def unescapeString (l : List Char) : List Char :=
  replace2 '\\' '"' '"' (replace2 '\\' 'n' '\n' (replace2 '\\' '\\' '\\' l))

/-- `Parser::finish_string`: consume the opening quote, slice (escape
aware) up to the closing quote or to the end of input, and unescape.  No
error is ever recorded here. -/
def finish_string (p : PState) : Option Value × PState :=
  let p1 := advance1 p
  match slice_to_excluding '"' p1 with
  | (some s, p) => (some (Value.String (String.mk (unescapeString s))), p)
  | (none, p) => (none, p)

/-- The `White_Space` test used by Rust's `str::trim_end`. -/
def isRustWhitespace (c : Char) : Bool :=
  let n := c.toNat
  n == 0x9 || n == 0xA || n == 0xB || n == 0xC || n == 0xD || n == 0x20 ||
  n == 0x85 || n == 0xA0 || n == 0x1680 ||
  (decide (0x2000 ≤ n) && decide (n ≤ 0x200A)) ||
  n == 0x2028 || n == 0x2029 || n == 0x202F || n == 0x205F || n == 0x3000

/-- Rust's `str::trim_end`. -/
def trimEnd (l : List Char) : List Char :=
  (l.reverse.dropWhile isRustWhitespace).reverse

/-- The unescaping applied by `Parser::cell`: `\\` then `\n` then `\|`. -/
def cellUnescape (l : List Char) : List Char :=
  replace2 '\\' '|' '|' (replace2 '\\' 'n' '\n' (replace2 '\\' '\\' '\\' l))

/-- `Parser::cell`: skip whitespace, slice (escape aware) up to the next
unescaped `|` (or end of input), right-trim, unescape. -/
def cell (p : PState) : String × PState :=
  let p1 := whitespace p
  match slice_to_excluding '|' p1 with
  | (some s, p) => (String.mk (cellUnescape (trimEnd s)), p)
  | (none, p) => (String.mk (cellUnescape (trimEnd [])), p)

/-- `Parser::comment`: on `#`, capture everything up to and including the
next newline (or to end of input). -/
def comment (p : PState) : Option Element × PState :=
  let t := eat '#' p
  if t.1 then
    match slice_to_including '\n' t.2 with
    | (some s, p) => (some (Element.Comment (String.mk s)), p)
    | (none, p) => (some (Element.Comment ""), p)
  else (none, t.2)

/-- Index of the first occurrence of `name`
(`sections.iter().position(|s| *s == name)`). -/
def position (name : String) : List String → Option Nat
  | [] => none
  | s :: rest => if s = name then some 0 else (position name rest).map (· + 1)

/-- `Vec::swap_remove`: overwrite index `i` with the last element and pop
the last element. -/
def swapRemove (l : List String) (i : Nat) : List String :=
  match l.getLast? with
  | none => l
  | some lastv => (l.set i lastv).dropLast

/-- `Parser::is_section_accepted`: `Some true` always without a filter;
with a filter, `None` when the remaining list is empty (stream
termination), otherwise membership with removal-on-acceptance. -/
def is_section_accepted (name : String) (p : PState) : Option Bool × PState :=
  match p.acceptedSections with
  | none => (some true, p)
  | some sections =>
    if sections = [] then (none, p)
    else
      match position name sections with
      | some idx =>
        (some true, { p with acceptedSections := some (swapRemove sections idx) })
      | none => (some false, p)

/-- Ordered-map insertion with last-write-wins, the behaviour of
`BTreeMap::insert` on a map represented as an assoc list sorted by key. -/
def insertS {α : Type} (k : String) (v : α) : List (String × α) → List (String × α)
  | [] => [(k, v)]
  | (k', v') :: rest =>
    if k.data < k'.data then (k, v) :: (k', v') :: rest
    else if k = k' then (k, v) :: rest
    else (k', v') :: insertS k v rest

/-- Ordered-map lookup (`BTreeMap::get`). -/
def lookupS {α : Type} (k : String) : List (String × α) → Option α
  | [] => none
  | (k', v) :: rest => if k' = k then some v else lookupS k rest

mutual

/-- `Parser::value`: skip whitespace / one newline / whitespace, then
dispatch on the lookahead character; an unsupported character (or end of
input) records the error `Cannot read a value`. -/
def value : Nat → PState → Option Value × PState
  | 0, p => (none, p)
  | fuel + 1, p =>
    let p1 := whitespace ((newline (whitespace p)).2)
    match p1.rest.head? with
    | some '"' => finish_string p1
    | some '[' => finish_array fuel p1
    | some '{' => finish_dictionary fuel p1
    | some c =>
      if c.isDigit then number p1
      else if c = 't' ∨ c = 'f' then boolean p1
      else (none, add_error "Cannot read a value" p1)
    | none => (none, add_error "Cannot read a value" p1)

/-- `Parser::finish_array`: consume the `[` and run the element loop. -/
def finish_array : Nat → PState → Option Value × PState
  | 0, p => (none, p)
  | fuel + 1, p => arrLoop fuel [] (advance1 p)

/-- The loop of `Parser::finish_array`: `]` finishes, `,` is skipped,
anything else is a recursive value; end of input records
`Cannot finish an array` and fails the production. -/
def arrLoop : Nat → List Value → PState → Option Value × PState
  | 0, _, p => (none, p)
  | fuel + 1, acc, p =>
    let p1 := whitespace p
    match p1.rest.head? with
    | none => (none, add_error "Cannot finish an array" p1)
    | some ']' => (some (Value.Array acc), advance1 p1)
    | some ',' => arrLoop fuel acc (advance1 p1)
    | some _ =>
      match value fuel p1 with
      | (some v, p2) => arrLoop fuel (acc ++ [v]) p2
      | (none, p2) => (none, p2)

/-- `Parser::finish_dictionary`: consume the `{` and run the entry loop. -/
def finish_dictionary : Nat → PState → Option Value × PState
  | 0, p => (none, p)
  | fuel + 1, p => dictLoop fuel [] (advance1 p)

/-- The loop of `Parser::finish_dictionary`: `}` finishes, `,` and `\n`
are skipped, anything else is a key/value entry; end of input records
`Cannot finish a dictionary` and fails the production.  The source panics
when `entry` yields a non-entry element; `entry` only ever yields
`Element::Entry`, so that arm is unreachable. -/
def dictLoop : Nat → List (String × Value) → PState → Option Value × PState
  | 0, _, p => (none, p)
  | fuel + 1, acc, p =>
    let p1 := whitespace p
    match p1.rest.head? with
    | none => (none, add_error "Cannot finish a dictionary" p1)
    | some '}' => (some (Value.Dictionary acc), advance1 p1)
    | some ',' => dictLoop fuel acc (advance1 p1)
    | some '\n' => dictLoop fuel acc (advance1 p1)
    | some _ =>
      match entry fuel p1 with
      | (some (Element.Entry k v), p2) => dictLoop fuel (insertS k v acc) p2
      | (some _, p2) => (none, p2)
      | (none, p2) => (none, p2)

/-- `Parser::entry`: a key, then the separator, then a value; any failure
yields no element. -/
def entry : Nat → PState → Option Element × PState
  | 0, p => (none, p)
  | fuel + 1, p =>
    match key_name p with
    | (none, p1) => (none, p1)
    | (some k, p1) =>
      match keyval_sep p1 with
      | (false, p2) => (none, p2)
      | (true, p2) =>
        match value fuel p2 with
        | (some v, p3) => (some (Element.Entry k v), p3)
        | (none, p3) => (none, p3)

end

/-- Fuel that is ample for the value grammar on the remaining input: each
grammar step consumes at least one character within at most four nested
calls. -/
def valueFuel (p : PState) : Nat := 4 * p.rest.length + 8

/-- The loop of `Parser::row`: whitespace, then stop on a comment (whose
element is discarded here), a newline or end of input, otherwise read one
cell. -/
def rowLoop : Nat → List Value → PState → List Value × PState
  | 0, acc, p => (acc, p)
  | fuel + 1, acc, p =>
    let p1 := whitespace p
    match comment p1 with
    | (some _, p2) => (acc, p2)
    | (none, p2) =>
      match newline p2 with
      | (true, p3) => (acc, p3)
      | (false, p3) =>
        if p3.rest.isEmpty then (acc, p3)
        else
          match cell p3 with
          | (s, p4) => rowLoop fuel (acc ++ [Value.String s]) p4

/-- `Parser::row`: consume the leading `|` and collect cells; a row always
succeeds and is returned as `Element::Row`. -/
def row (p : PState) : Option Element × PState :=
  let p1 := (eat '|' p).2
  let t := rowLoop (p1.rest.length + 1) [] p1
  (some (Element.Row t.1), t.2)

/-- The body of `Iterator::next` for `Parser`: the element-level state
machine, with the local `is_section_accepted` flag threaded through the
loop (fuel bounds the loop, every continued iteration consumes at least
one character). -/
def nextEl : Nat → Bool → PState → Option Element × PState
  | 0, _, p => (none, p)
  | fuel + 1, flag, p =>
    let p1 := whitespace p
    match newline p1 with
    | (true, p2) => nextEl fuel flag p2
    | (false, p2) =>
      match p2.rest.head? with
      | none => (none, p2)
      | some c =>
        if c = '[' then
          match section_name p2 with
          | (name, p3) =>
            match is_section_accepted name p3 with
            | (some true, p4) => (some (Element.Section name), p4)
            | (some false, p4) => nextEl fuel false (skip_line p4)
            | (none, p4) => (none, p4)
        else if flag then
          match c with
          | '|' => row p2
          | '#' => comment p2
          | _ => entry (valueFuel p2) p2
        else nextEl fuel flag (skip_line p2)

/-- `Parser::next` (the `Iterator` implementation). -/
def next (p : PState) : Option Element × PState :=
  nextEl (p.rest.length + 1) true p

/-- The empty section a new block starts from (`Section::with_capacity`;
the capacity hint has no semantic effect). -/
def emptySection : Section := ⟨[], []⟩

/-- The commit step of `Parser::read` when a new section header arrives:
an open named section is inserted into the map (overwriting a previous
entry of the same name). -/
def commit (m : List (String × Section)) (nm : Option String) (sec : Section) :
    List (String × Section) :=
  match nm with
  | some n => insertS n sec m
  | none => m

/-- The end-of-stream step of `Parser::read`: commit the open section, or
the implicit `root` section when no section was ever opened and no filter
is configured; then fail when any error was recorded. -/
def finalize (p : PState) (m : List (String × Section)) (nm : Option String)
    (sec : Section) : Option (List (String × Section)) × PState :=
  let m1 := match nm with
    | some n => insertS n sec m
    | none =>
      match p.acceptedSections with
      | none => insertS "root" sec m
      | some _ => m
  (if p.errors.isEmpty then some m1 else none, p)

/-- The `while let Some(el) = self.next()` loop of `Parser::read`. -/
def readGo : Nat → PState → List (String × Section) → Option String → Section →
    Option (List (String × Section)) × PState
  | 0, p, m, nm, sec => finalize p m nm sec
  | fuel + 1, p, m, nm, sec =>
    match next p with
    | (some (Element.Section n), p1) => readGo fuel p1 (commit m nm sec) (some n) emptySection
    | (some (Element.Row cells), p1) =>
      readGo fuel p1 m nm { sec with rows := sec.rows ++ [cells] }
    | (some (Element.Entry k v), p1) =>
      readGo fuel p1 m nm { sec with dictionary := insertS k v sec.dictionary }
    | (some (Element.Comment _), p1) => readGo fuel p1 m nm sec
    | (none, p1) => finalize p1 m nm sec

/-- `Parser::read`: drive the element stream into the ordered section
map.  Every element produced by `next` consumes at least one character,
so `rest.length + 1` rounds of the loop always reach end of stream. -/
def read (p : PState) : Option (List (String × Section)) × PState :=
  readGo (p.rest.length + 1) p [] none emptySection

/-! ### State-accounting lemmas

None of the lexical primitives touches the error list; `add_error` appends
one entry.  These lemmas propagate that accounting through the grammar. -/

theorem errors_advanceTo (p : PState) (r : List Char) :
    (advanceTo p r).errors = p.errors := rfl

theorem errors_advance1 (p : PState) : (advance1 p).errors = p.errors := by
  unfold advance1; split <;> rfl

theorem errors_whitespace (p : PState) : (whitespace p).errors = p.errors := rfl

theorem errors_skip_line (p : PState) : (skip_line p).errors = p.errors := rfl

theorem errors_newline (p : PState) : (newline p).2.errors = p.errors := by
  unfold newline
  repeat' split
  all_goals simp [errors_advance1]

theorem errors_eat (ch : Char) (p : PState) : (eat ch p).2.errors = p.errors := by
  unfold eat
  repeat' split
  all_goals simp [errors_advance1]

theorem errors_slice_to_including (ch : Char) (p : PState) :
    (slice_to_including ch p).2.errors = p.errors := by
  unfold slice_to_including
  repeat' split
  all_goals simp [errors_advanceTo]

theorem errors_slice_to_excluding (ch : Char) (p : PState) :
    (slice_to_excluding ch p).2.errors = p.errors := by
  unfold slice_to_excluding
  repeat' split
  all_goals simp [errors_advance1, errors_advanceTo]

theorem errors_slice_while (f : Char → Bool) (p : PState) :
    (slice_while f p).2.errors = p.errors := by
  unfold slice_while
  repeat' split
  all_goals simp [errors_advanceTo]

theorem errors_section_name (p : PState) : (section_name p).2.errors = p.errors := by
  simp [section_name, errors_advanceTo, errors_whitespace, errors_eat]

theorem errors_key_name (p : PState) : (key_name p).2.errors = p.errors := by
  simp [key_name, errors_slice_while]

theorem errors_keyval_sep (p : PState) : (keyval_sep p).2.errors = p.errors := by
  simp only [keyval_sep]
  split
  all_goals simp [errors_whitespace, errors_eat]

theorem errors_boolean (p : PState) : (boolean p).2.errors = p.errors := by
  unfold boolean
  repeat' split
  all_goals simp [errors_advanceTo]

theorem errors_integer (p : PState) : (integer p).2.errors = p.errors := by
  simp [integer, errors_slice_while]

theorem errors_number (p : PState) : (number p).2.errors = p.errors := by
  have hi := errors_integer p
  rcases h : integer p with ⟨r, p1⟩
  rw [h] at hi
  dsimp only at hi
  cases r with
  | none => simp [number, h, hi]
  | some s =>
    have he := errors_eat '.' p1
    rcases h2 : eat '.' p1 with ⟨b, p2⟩
    rw [h2] at he
    dsimp only at he
    have hi2 := errors_integer p2
    rcases h3 : integer p2 with ⟨r2, p3⟩
    rw [h3] at hi2
    dsimp only at hi2
    cases b
    · simp [number, h, h2, hi, he]
    · cases r2 <;> simp [number, h, h2, h3, hi, he, hi2]

theorem errors_finish_string (p : PState) : (finish_string p).2.errors = p.errors := by
  have h1 := errors_advance1 p
  have h2 := errors_slice_to_excluding '"' (advance1 p)
  rcases h : slice_to_excluding '"' (advance1 p) with ⟨r, p1⟩
  rw [h] at h2
  dsimp only at h2
  cases r <;> simp [finish_string, h, h1, h2]

theorem errors_cell (p : PState) : (cell p).2.errors = p.errors := by
  have hw : (whitespace p).errors = p.errors := errors_whitespace p
  have h2 := errors_slice_to_excluding '|' (whitespace p)
  rcases h : slice_to_excluding '|' (whitespace p) with ⟨r, p1⟩
  rw [h] at h2
  dsimp only at h2
  cases r <;> simp [cell, h, hw, h2]

theorem errors_comment (p : PState) : (comment p).2.errors = p.errors := by
  have he := errors_eat '#' p
  rcases h : eat '#' p with ⟨b, p1⟩
  rw [h] at he
  dsimp only at he
  cases b
  · simp [comment, h, he]
  · have h2 := errors_slice_to_including '\n' p1
    rcases h3 : slice_to_including '\n' p1 with ⟨r, p2⟩
    rw [h3] at h2
    dsimp only at h2
    cases r <;> simp [comment, h, h3, he, h2]

theorem errors_is_section_accepted (name : String) (p : PState) :
    (is_section_accepted name p).2.errors = p.errors := by
  unfold is_section_accepted
  repeat' split
  all_goals rfl

theorem errors_add_error (msg : String) (p : PState) :
    (add_error msg p).errors = p.errors ++ [⟨p.consumed, p.consumed + min 1 p.rest.length, msg⟩] :=
  rfl

theorem errExt_eq {p q : PState} (h : q.errors = p.errors) :
    ∃ l, q.errors = p.errors ++ l := ⟨[], by simp [h]⟩

theorem errExt_comp {p q r : PState} (h : q.errors = p.errors)
    (h2 : ∃ l, r.errors = q.errors ++ l) : ∃ l, r.errors = p.errors ++ l := by
  obtain ⟨l, hl⟩ := h2
  exact ⟨l, by rw [hl, h]⟩

theorem errExt_trans {p q r : PState} (h1 : ∃ l, q.errors = p.errors ++ l)
    (h2 : ∃ l, r.errors = q.errors ++ l) : ∃ l, r.errors = p.errors ++ l := by
  obtain ⟨l1, hl1⟩ := h1
  obtain ⟨l2, hl2⟩ := h2
  exact ⟨l1 ++ l2, by rw [hl2, hl1, List.append_assoc]⟩

theorem errExt_add {p q : PState} (msg : String) (h : q.errors = p.errors) :
    ∃ l, (add_error msg q).errors = p.errors ++ l :=
  ⟨_, by rw [errors_add_error, h]⟩

/-- The value grammar only ever appends to the error list. -/
theorem errors_grammar : ∀ fuel : Nat,
    (∀ p, ∃ l, (value fuel p).2.errors = p.errors ++ l) ∧
    (∀ p, ∃ l, (finish_array fuel p).2.errors = p.errors ++ l) ∧
    (∀ acc p, ∃ l, (arrLoop fuel acc p).2.errors = p.errors ++ l) ∧
    (∀ p, ∃ l, (finish_dictionary fuel p).2.errors = p.errors ++ l) ∧
    (∀ acc p, ∃ l, (dictLoop fuel acc p).2.errors = p.errors ++ l) ∧
    (∀ p, ∃ l, (entry fuel p).2.errors = p.errors ++ l) := by
  intro fuel
  induction fuel with
  | zero =>
    exact ⟨fun p => errExt_eq (by simp [value]),
           fun p => errExt_eq (by simp [finish_array]),
           fun acc p => errExt_eq (by simp [arrLoop]),
           fun p => errExt_eq (by simp [finish_dictionary]),
           fun acc p => errExt_eq (by simp [dictLoop]),
           fun p => errExt_eq (by simp [entry])⟩
  | succ n ih =>
    obtain ⟨ihv, ihfa, ihal, ihfd, ihdl, ihe⟩ := ih
    have hval : ∀ p, ∃ l, (value (n + 1) p).2.errors = p.errors ++ l := by
      intro p
      have hq : (whitespace ((newline (whitespace p)).2)).errors = p.errors := by
        rw [errors_whitespace, errors_newline, errors_whitespace]
      simp only [value]
      split
      · exact errExt_comp hq (errExt_eq (errors_finish_string _))
      · exact errExt_comp hq (ihfa _)
      · exact errExt_comp hq (ihfd _)
      · split
        · exact errExt_comp hq (errExt_eq (errors_number _))
        · split
          · exact errExt_comp hq (errExt_eq (errors_boolean _))
          · exact errExt_add _ hq
      · exact errExt_add _ hq
    have harr : ∀ acc p, ∃ l, (arrLoop (n + 1) acc p).2.errors = p.errors ++ l := by
      intro acc p
      have hw : (whitespace p).errors = p.errors := errors_whitespace p
      simp only [arrLoop]
      split
      · exact errExt_add _ hw
      · exact errExt_comp hw (errExt_eq (errors_advance1 _))
      · exact errExt_comp ((errors_advance1 _).trans hw) (ihal acc _)
      · have hv := ihv (whitespace p)
        split
        · rename_i v p2 heq
          rw [heq] at hv
          dsimp only at hv
          exact errExt_comp hw (errExt_trans hv (ihal _ p2))
        · rename_i p2 heq
          rw [heq] at hv
          dsimp only at hv
          exact errExt_comp hw hv
    have hdict : ∀ acc p, ∃ l, (dictLoop (n + 1) acc p).2.errors = p.errors ++ l := by
      intro acc p
      have hw : (whitespace p).errors = p.errors := errors_whitespace p
      simp only [dictLoop]
      split
      · exact errExt_add _ hw
      · exact errExt_comp hw (errExt_eq (errors_advance1 _))
      · exact errExt_comp ((errors_advance1 _).trans hw) (ihdl acc _)
      · exact errExt_comp ((errors_advance1 _).trans hw) (ihdl acc _)
      · have hv := ihe (whitespace p)
        split
        · rename_i k v p2 heq
          rw [heq] at hv
          dsimp only at hv
          exact errExt_comp hw (errExt_trans hv (ihdl _ p2))
        · rename_i e p2 heq hne
          rw [hne] at hv
          dsimp only at hv
          exact errExt_comp hw hv
        · rename_i p2 heq
          rw [heq] at hv
          dsimp only at hv
          exact errExt_comp hw hv
    have hent : ∀ p, ∃ l, (entry (n + 1) p).2.errors = p.errors ++ l := by
      intro p
      have hk := errors_key_name p
      rcases h1 : key_name p with ⟨k?, p1⟩
      rw [h1] at hk
      dsimp only at hk
      cases k? with
      | none => exact ⟨[], by simp [entry, h1, hk]⟩
      | some k =>
        have hs := errors_keyval_sep p1
        rcases h2 : keyval_sep p1 with ⟨b, p2⟩
        rw [h2] at hs
        dsimp only at hs
        cases b with
        | false => exact ⟨[], by simp [entry, h1, h2, hs, hk]⟩
        | true =>
          have hv := ihv p2
          rcases h3 : value n p2 with ⟨v?, p3⟩
          rw [h3] at hv
          dsimp only at hv
          have hp2 : p2.errors = p.errors := hs.trans hk
          cases v? with
          | none => exact hv.imp fun l hl => by simp [entry, h1, h2, h3, hl, hp2]
          | some v => exact hv.imp fun l hl => by simp [entry, h1, h2, h3, hl, hp2]
    refine ⟨hval, fun p => ?_, harr, fun p => ?_, hdict, hent⟩
    · simp only [finish_array]
      exact errExt_comp (errors_advance1 p) (ihal [] _)
    · simp only [finish_dictionary]
      exact errExt_comp (errors_advance1 p) (ihdl [] _)

theorem errors_rowLoop : ∀ fuel acc p, (rowLoop fuel acc p).2.errors = p.errors := by
  intro fuel
  induction fuel with
  | zero => intro acc p; simp [rowLoop]
  | succ n ih =>
    intro acc p
    have hw := errors_whitespace p
    have hc := errors_comment (whitespace p)
    rcases h1 : comment (whitespace p) with ⟨c?, p1⟩
    rw [h1] at hc
    dsimp only at hc
    cases c? with
    | some e => simp [rowLoop, h1, hc, hw]
    | none =>
      have hn := errors_newline p1
      rcases h2 : newline p1 with ⟨b, p2⟩
      rw [h2] at hn
      dsimp only at hn
      cases b with
      | true => simp [rowLoop, h1, h2, hn, hc, hw]
      | false =>
        by_cases he : p2.rest.isEmpty
        · simp [rowLoop, h1, h2, he, hn, hc, hw]
        · have hcl := errors_cell p2
          rcases h3 : cell p2 with ⟨s, p3⟩
          rw [h3] at hcl
          dsimp only at hcl
          simp [rowLoop, h1, h2, h3, he, ih, hcl, hn, hc, hw]

theorem errors_row (p : PState) : (row p).2.errors = p.errors := by
  simp [row, errors_rowLoop, errors_eat]

/-- The element producer only ever appends to the error list. -/
theorem errors_nextEl : ∀ fuel flag p, ∃ l, (nextEl fuel flag p).2.errors = p.errors ++ l := by
  intro fuel
  induction fuel with
  | zero => intro flag p; exact ⟨[], by simp [nextEl]⟩
  | succ n ih =>
    intro flag p
    have hn := errors_newline (whitespace p)
    rcases h1 : newline (whitespace p) with ⟨b, p2⟩
    rw [h1] at hn
    dsimp only at hn
    have hp2 : p2.errors = p.errors := hn.trans (errors_whitespace p)
    cases b with
    | true =>
      obtain ⟨l, hl⟩ := ih flag p2
      exact ⟨l, by simp [nextEl, h1, hl, hp2]⟩
    | false =>
      rcases h2 : p2.rest.head? with _ | c
      · exact ⟨[], by simp [nextEl, h1, h2, hp2]⟩
      · by_cases hc : c = '['
        · subst hc
          have hsn := errors_section_name p2
          rcases h3 : section_name p2 with ⟨nm, p3⟩
          rw [h3] at hsn
          dsimp only at hsn
          have hisa := errors_is_section_accepted nm p3
          rcases h4 : is_section_accepted nm p3 with ⟨acc?, p4⟩
          rw [h4] at hisa
          dsimp only at hisa
          have hp4 : p4.errors = p.errors := by rw [hisa, hsn, hp2]
          rcases acc? with _ | bb
          · exact ⟨[], by simp [nextEl, h1, h2, h3, h4, hp4]⟩
          · cases bb with
            | true => exact ⟨[], by simp [nextEl, h1, h2, h3, h4, hp4]⟩
            | false =>
              obtain ⟨l, hl⟩ := ih false (skip_line p4)
              refine ⟨l, ?_⟩
              rw [errors_skip_line] at hl
              simp [nextEl, h1, h2, h3, h4, hl, hp4]
        · cases flag with
          | false =>
            obtain ⟨l, hl⟩ := ih false (skip_line p2)
            refine ⟨l, ?_⟩
            rw [errors_skip_line] at hl
            simp [nextEl, h1, h2, hc, hl, hp2]
          | true =>
            by_cases hr : c = '|'
            · subst hr
              exact ⟨[], by simp [nextEl, h1, h2, hc, errors_row, hp2]⟩
            · by_cases hcm : c = '#'
              · subst hcm
                exact ⟨[], by simp [nextEl, h1, h2, hc, hr, errors_comment, hp2]⟩
              · obtain ⟨l, hl⟩ := (errors_grammar (valueFuel p2)).2.2.2.2.2 p2
                exact ⟨l, by simp [nextEl, h1, h2, hc, hr, hcm, hl, hp2]⟩

/-- `Parser::next` only ever appends to the error list. -/
theorem errors_next (p : PState) : ∃ l, (next p).2.errors = p.errors ++ l :=
  errors_nextEl _ true p

/-! ### Helpers about the final map-building step of `read` -/

theorem finalize_isSome (p : PState) (m : List (String × Section)) (nm : Option String)
    (sec : Section) :
    ((finalize p m nm sec).1 ≠ none ↔ (finalize p m nm sec).2.errors = []) := by
  cases h : p.errors <;> simp [finalize, h]

theorem readGo_isSome : ∀ (fuel : Nat) (p : PState) m nm sec,
    ((readGo fuel p m nm sec).1 ≠ none ↔ (readGo fuel p m nm sec).2.errors = []) := by
  intro fuel
  induction fuel with
  | zero => intro p m nm sec; simpa [readGo] using finalize_isSome p m nm sec
  | succ n ih =>
    intro p m nm sec
    rcases h : next p with ⟨el?, p1⟩
    rcases el? with _ | el
    · simpa [readGo, h] using finalize_isSome p1 m nm sec
    · cases el <;> simp only [readGo, h] <;> exact ih _ _ _ _

theorem readGo_none_of_errors : ∀ (fuel : Nat) (p : PState) m nm sec, p.errors ≠ [] →
    (readGo fuel p m nm sec).1 = none := by
  intro fuel
  induction fuel with
  | zero =>
    intro p m nm sec h
    rcases hp : p.errors with _ | ⟨e, l⟩
    · exact absurd hp h
    · simp [readGo, finalize, hp]
  | succ n ih =>
    intro p m nm sec h
    obtain ⟨l, hl⟩ := errors_next p
    rcases hn : next p with ⟨el?, p1⟩
    rw [hn] at hl
    dsimp only at hl
    have h1 : p1.errors ≠ [] := by rw [hl]; simp [h]
    rcases el? with _ | el
    · rcases hp : p1.errors with _ | ⟨e, l2⟩
      · exact absurd hp h1
      · simp [readGo, hn, finalize, hp]
    · cases el <;> simp only [readGo, hn] <;> exact ih _ _ _ _ h1

/-! ### Helpers about the cursor primitives -/

theorem advanceTo_self (p : PState) : advanceTo p p.rest = p := by
  cases p
  simp [advanceTo]

theorem whitespace_nop {p : PState} {c : Char} (h : p.rest.head? = some c)
    (hw : isWsChar c = false) : whitespace p = p := by
  rcases hr : p.rest with _ | ⟨c', cs⟩
  · rw [hr] at h; simp at h
  · rw [hr] at h
    simp only [List.head?] at h
    injection h with h
    subst h
    have hd : dropWs p.rest = p.rest := by rw [hr]; simp [dropWs, hw]
    rw [whitespace, hd, advanceTo_self]

theorem newline_of_head {p : PState} {c : Char} (h : p.rest.head? = some c)
    (h1 : c ≠ '\n') (h2 : c ≠ '\r') : newline p = (false, p) := by
  rcases hr : p.rest with _ | ⟨c', cs⟩
  · rw [hr] at h; simp at h
  · rw [hr] at h
    simp only [List.head?] at h
    injection h with h
    subst h
    rw [newline, hr]
    split <;> simp_all

theorem eat_of_head_ne {p : PState} {ch : Char} (h : p.rest.head? ≠ some ch) :
    eat ch p = (false, p) := by
  rcases hr : p.rest with _ | ⟨c, cs⟩
  · simp [eat, hr]
  · rw [hr] at h
    simp only [List.head?, ne_eq, Option.some.injEq] at h
    simp [eat, hr, h]

theorem spanExcl_not_mem {ch : Char} : ∀ (cs : List Char) (prev : Char), ch ∉ cs →
    spanExcl ch prev cs = (cs, []) := by
  intro cs
  induction cs with
  | nil => intro prev h; rfl
  | cons c cs ih =>
    intro prev h
    rw [List.mem_cons, not_or] at h
    obtain ⟨h1, h2⟩ := h
    simp only [spanExcl]
    rw [if_neg (fun hand => h1 hand.1.symm)]
    simp [ih c h2]

theorem acc_advance1 (p : PState) : (advance1 p).acceptedSections = p.acceptedSections := by
  unfold advance1; split <;> rfl

theorem acc_advanceTo (p : PState) (r : List Char) :
    (advanceTo p r).acceptedSections = p.acceptedSections := rfl

theorem acc_whitespace (p : PState) : (whitespace p).acceptedSections = p.acceptedSections := rfl

theorem acc_eat (ch : Char) (p : PState) :
    (eat ch p).2.acceptedSections = p.acceptedSections := by
  unfold eat
  repeat' split
  all_goals simp [acc_advance1]

theorem acc_section_name (p : PState) :
    (section_name p).2.acceptedSections = p.acceptedSections := by
  simp [section_name, acc_advanceTo, acc_whitespace, acc_eat]

/-! ### Helpers about the section filter -/

/-- Occurrence count of a name in the filter list. -/
def countOcc (name : String) : List String → Nat
  | [] => 0
  | s :: rest => (if s = name then 1 else 0) + countOcc name rest

theorem countOcc_append (name : String) :
    ∀ l1 l2, countOcc name (l1 ++ l2) = countOcc name l1 + countOcc name l2 := by
  intro l1 l2
  induction l1 with
  | nil => simp [countOcc]
  | cons s rest ih => simp [countOcc, ih, Nat.add_assoc]

theorem position_none_iff (name : String) : ∀ l, position name l = none ↔ name ∉ l := by
  intro l
  induction l with
  | nil => simp [position]
  | cons s rest ih =>
    by_cases h : s = name
    · subst h; simp [position]
    · simp only [position, if_neg h, Option.map_eq_none', ih, List.mem_cons, not_or]
      constructor
      · exact fun hn => ⟨fun he => h he.symm, hn⟩
      · exact fun hn => hn.2

theorem position_some_get (name : String) :
    ∀ l i, position name l = some i → l.get? i = some name := by
  intro l
  induction l with
  | nil => intro i h; simp [position] at h
  | cons s rest ih =>
    intro i h
    by_cases hs : s = name
    · simp only [position, if_pos hs] at h
      injection h with h
      subst h
      simp [hs]
    · simp only [position, if_neg hs] at h
      rcases hp : position name rest with _ | j
      · rw [hp] at h; simp at h
      · rw [hp] at h
        simp only [Option.map_some'] at h
        injection h with h
        subst h
        simpa using ih j hp

theorem countOcc_set (x : String) : ∀ (l : List String) (i : Nat) (a b : String),
    l.get? i = some a →
    countOcc x (l.set i b) + (if a = x then 1 else 0)
      = countOcc x l + (if b = x then 1 else 0) := by
  intro l
  induction l with
  | nil => intro i a b h; simp at h
  | cons s rest ih =>
    intro i a b h
    cases i with
    | zero =>
      simp only [List.get?] at h
      injection h with h
      subst h
      simp only [List.set, countOcc]
      omega
    | succ j =>
      simp only [List.get?] at h
      simp only [List.set, countOcc]
      have := ih j a b h
      omega

theorem getLast?_eq_get? {α : Type} : ∀ (l : List α), l.getLast? = l.get? (l.length - 1) := by
  intro l
  induction l with
  | nil => rfl
  | cons a l ih =>
    cases l with
    | nil => rfl
    | cons b l2 =>
      rw [List.getLast?_cons_cons, ih]
      have h1 : (a :: b :: l2).length - 1 = (b :: l2).length - 1 + 1 := by
        simp
      rw [h1, List.get?_cons_succ]

theorem swapRemove_count (l : List String) (i : Nat) (name : String)
    (h : l.get? i = some name) :
    countOcc name (swapRemove l i) + 1 = countOcc name l := by
  have hne : l ≠ [] := by rintro rfl; simp at h
  have hlen0 : 0 < l.length := List.length_pos.mpr hne
  have hilt : i < l.length := by
    by_contra hge
    rw [List.get?_eq_none.mpr (Nat.le_of_not_lt hge)] at h
    exact Option.noConfusion h
  rcases hlast : l.getLast? with _ | lastv
  · exact absurd (List.getLast?_eq_none_iff.mp hlast) hne
  · have hsw : swapRemove l i = (l.set i lastv).dropLast := by
      rw [swapRemove, hlast]
    have hmlen : (l.set i lastv).length = l.length := List.length_set l i lastv
    have hmlast : (l.set i lastv).getLast? = some lastv := by
      rw [getLast?_eq_get?, hmlen]
      by_cases hi : i = l.length - 1
      · subst hi
        exact List.get?_set_eq_of_lt lastv (by omega)
      · rw [List.get?_set_ne lastv l hi, ← getLast?_eq_get?]
        exact hlast
    have hsplit : (l.set i lastv).dropLast ++ [lastv] = l.set i lastv :=
      List.dropLast_append_getLast? lastv (by rw [Option.mem_def]; exact hmlast)
    have hcm : countOcc name ((l.set i lastv).dropLast) + (if lastv = name then 1 else 0)
        = countOcc name (l.set i lastv) := by
      conv_rhs => rw [← hsplit]
      rw [countOcc_append]
      simp [countOcc]
    have hcs := countOcc_set name l i name lastv h
    rw [if_pos rfl] at hcs
    rw [hsw]
    omega

/-! ### Helpers about the ordered map -/

theorem lookup_insertS {α : Type} (k : String) (v : α) :
    ∀ m, lookupS k (insertS k v m) = some v := by
  intro m
  induction m with
  | nil => simp [insertS, lookupS]
  | cons kv rest ih =>
    obtain ⟨k', v'⟩ := kv
    by_cases h1 : k.data < k'.data
    · simp [insertS, h1, lookupS]
    · by_cases h2 : k = k'
      · simp [insertS, h1, h2, lookupS]
      · have h3 : ¬(k' = k) := fun he => h2 he.symm
        simp [insertS, h1, h2, lookupS, h3, ih]

/-! ### The claims -/

/-- C1: `read` is all-or-nothing.  It yields a map exactly when the error
list is empty at the end of the stream; any state whose error list is
already non-empty (errors are only ever appended during the parse) makes
the whole loop yield no result; and the input `key =` (a key, `=`, end of
input) yields no result. -/
theorem claim1_read_all_or_nothing :
    (∀ (fuel : Nat) (p : PState) (m : List (String × Section)) (nm : Option String)
        (sec : Section),
      ((readGo fuel p m nm sec).1 ≠ none ↔ (readGo fuel p m nm sec).2.errors = [])) ∧
    (∀ (fuel : Nat) (p : PState) (m : List (String × Section)) (nm : Option String)
        (sec : Section), p.errors ≠ [] → (readGo fuel p m nm sec).1 = none) ∧
    (read (mkP "key =")).1 = none :=
  ⟨readGo_isSome, readGo_none_of_errors, rfl⟩

theorem claim1_w :
    (PState.mk [] 0 [⟨0, 0, "e"⟩] none).errors ≠ [] ∧
    (readGo 0 (PState.mk [] 0 [⟨0, 0, "e"⟩] none) [] none emptySection).1 = none :=
  ⟨by simp, claim1_read_all_or_nothing.2.1 0 _ [] none emptySection (by simp)⟩

/-- C2 (amended): when a key parses but the next character after the
whitespace run is not `=`, the entry production yields no element, having
consumed only the key and that whitespace, and records no error; on such a
document `read` consequently succeeds (the element stream simply ends
there). -/
theorem claim2_missing_sep :
    (∀ (fuel : Nat) (p : PState) (k : String) (p1 : PState),
      key_name p = (some k, p1) →
      (whitespace p1).rest.head? ≠ some '=' →
      entry (fuel + 1) p = (none, whitespace p1) ∧ (whitespace p1).errors = p.errors) ∧
    (read (mkP "a b")).1 = some [("root", Section.mk [] [])] := by
  refine ⟨?_, rfl⟩
  intro fuel p k p1 hk hne
  have he : eat '=' (whitespace p1) = (false, whitespace p1) := eat_of_head_ne hne
  have hkv : keyval_sep p1 = (false, whitespace p1) := by
    simp [keyval_sep, he]
  constructor
  · simp [entry, hk, hkv]
  · have h := errors_key_name p
    rw [hk] at h
    dsimp only at h
    rw [errors_whitespace, h]

/-- C2, counterexample to the claim as stated: on `a b` (a key with no
`=` after it) the parse records no error at all and `read` reports
success, not overall failure. -/
theorem claim2_cx :
    (read (mkP "a b")).2.errors = [] ∧ (read (mkP "a b")).1 ≠ none :=
  ⟨rfl, by simp [show (read (mkP "a b")).1 = some [("root", Section.mk [] [])] from rfl]⟩

theorem claim2_w :
    key_name (mkP "a b") = (some "a", PState.mk [' ', 'b'] 1 [] none) ∧
    (whitespace (PState.mk [' ', 'b'] 1 [] none)).rest.head? ≠ some '=' ∧
    entry 1 (mkP "a b") = (none, whitespace (PState.mk [' ', 'b'] 1 [] none)) ∧
    (whitespace (PState.mk [' ', 'b'] 1 [] none)).errors = (mkP "a b").errors := by
  have h := claim2_missing_sep.1 0 (mkP "a b") "a" (PState.mk [' ', 'b'] 1 [] none) rfl
    (by decide)
  exact ⟨rfl, by decide, h.1, h.2⟩

/-- C3: the code's behaviour at the failing input.  On `12.` (and on
`12.x`) the digit run after the dot is missing, yet the number production
still succeeds, rendering only the integer part and yielding a float —
the `?` in the source's `Some(self.integer())?` is applied to an
always-`Some` value, so the intended failure never happens.  No error is
recorded. -/
theorem claim3_dot_number :
    number (mkP "12.") = (some (Value.Float "12"), PState.mk [] 3 [] none) ∧
    (value 5 (mkP "12.x")).1 = some (Value.Float "12") :=
  ⟨rfl, rfl⟩

/-- C4 (amended): once the filter list is exhausted, the element stream
terminates as soon as the producer meets a section header: with
`acceptedSections = some []` and `[` as the next character, `next` yields
nothing.  (Elements of the last accepted section's body are still
produced until such a header appears — see the counterexample.) -/
theorem claim4_filter_exhaustion :
    ∀ p : PState, p.acceptedSections = some [] → p.rest.head? = some '[' →
      (next p).1 = none := by
  intro p hacc hh
  have hw : whitespace p = p := whitespace_nop hh (by decide)
  have hn : newline p = (false, p) := newline_of_head hh (by decide) (by decide)
  rw [next]
  rcases hl : p.rest with _ | ⟨c, cs⟩
  · rw [hl] at hh; simp at hh
  · rw [hl] at hh
    simp only [List.head?] at hh
    injection hh with hh
    subst hh
    rcases hsn : section_name p with ⟨nm, p3⟩
    have hacc3 : p3.acceptedSections = some [] := by
      have := acc_section_name p
      rw [hsn] at this
      dsimp only at this
      rw [this, hacc]
    have hisa : is_section_accepted nm p3 = (none, p3) := by
      simp [is_section_accepted, hacc3]
    simp [nextEl, hl, hw, hn, hsn, hisa]

/-- C4, counterexample to the claim as stated: with filter `["A"]` on
`[A]\nk = 1`, the first element consumes the only accepted name (the
remaining list becomes empty), yet the following call still produces the
entry `k = 1` from the section body — the stream does not terminate
immediately upon exhaustion. -/
theorem claim4_cx :
    (next (mkPF "[A]\nk = 1" ["A"])).1 = some (Element.Section "A") ∧
    (next (mkPF "[A]\nk = 1" ["A"])).2.acceptedSections = some [] ∧
    (next (next (mkPF "[A]\nk = 1" ["A"])).2).1
      = some (Element.Entry "k" (Value.Integer 1)) :=
  ⟨rfl, rfl, rfl⟩

theorem claim4_w :
    (mkPF "[X]" []).acceptedSections = some [] ∧
    (mkPF "[X]" []).rest.head? = some '[' ∧
    (next (mkPF "[X]" [])).1 = none :=
  ⟨rfl, rfl, claim4_filter_exhaustion _ rfl rfl⟩

/-- C5 (amended): when no closing quote occurs in the input after the
opening quote, the string production still succeeds with the remaining
text (unescaped) as its value and records no error — provided at least
one character follows the opening quote.  When the opening quote is the
last character of the input, the production instead yields no value
(still without recording an error). -/
theorem claim5_unterminated_string :
    (∀ (p : PState) (c : Char) (cs : List Char), p.rest = '"' :: c :: cs →
      '"' ∉ c :: cs →
      finish_string p = (some (Value.String (String.mk (unescapeString (c :: cs)))),
        { p with rest := [], consumed := p.consumed + (cs.length + 2) })) ∧
    (∀ p : PState, p.rest = ['"'] →
      finish_string p = (none, { p with rest := [], consumed := p.consumed + 1 })) := by
  constructor
  · intro p c cs h1 h2
    obtain ⟨rest, k, errs, acc⟩ := p
    dsimp only at h1
    subst h1
    have hc : ¬(c = '"') := fun he => h2 (by rw [he]; exact List.mem_cons_self _ _)
    have hsp : spanExcl '"' c cs = (cs, []) :=
      spanExcl_not_mem cs c (fun hm => h2 (List.mem_cons_of_mem _ hm))
    simp [finish_string, advance1, slice_to_excluding, hc, hsp, advanceTo, PState.mk.injEq]
    omega
  · intro p h1
    obtain ⟨rest, k, errs, acc⟩ := p
    dsimp only at h1
    subst h1
    simp [finish_string, advance1, slice_to_excluding, PState.mk.injEq]

/-- C5, counterexample to the claim as stated: on input consisting of a
single `"` the closing quote never appears, yet the string production
yields no value at all rather than the empty remaining text. -/
theorem claim5_cx :
    finish_string (mkP "\"") = (none, PState.mk [] 1 [] none) :=
  rfl

theorem claim5_w :
    (mkP "\"ab").rest = '"' :: 'a' :: ['b'] ∧ '"' ∉ 'a' :: ['b'] ∧
    finish_string (mkP "\"ab")
      = (some (Value.String (String.mk (unescapeString ('a' :: ['b'])))),
        { mkP "\"ab" with rest := [], consumed := (mkP "\"ab").consumed + (['b'].length + 2) }) :=
  ⟨rfl, by decide, claim5_unterminated_string.1 _ 'a' ['b'] rfl (by decide)⟩

/-- C6: with a non-empty filter list, a section name is accepted exactly
when it is still in the list; on acceptance one occurrence of it is
removed (so a name the filter holds once is rejected on any later
occurrence); a rejected name leaves the state untouched.  Concretely,
with filter `["A"]` on a document with two `[A]` sections, only the first
occurrence's content is kept. -/
theorem claim6_filter_accept :
    (∀ (p : PState) (l : List String) (name : String),
      p.acceptedSections = some l → l ≠ [] →
      ((is_section_accepted name p).1 = some (decide (name ∈ l)) ∧
       (name ∈ l → ∃ l', (is_section_accepted name p).2.acceptedSections = some l' ∧
          countOcc name l' + 1 = countOcc name l) ∧
       (name ∉ l → (is_section_accepted name p).2 = p))) ∧
    (read (mkPF "[A]\nx = 1\n[A]\ny = 2" ["A"])).1
      = some [("A", Section.mk [("x", Value.Integer 1)] [])] := by
  refine ⟨?_, rfl⟩
  intro p l name hacc hne
  cases hp : position name l with
  | none =>
    have hmem : name ∉ l := (position_none_iff name l).mp hp
    refine ⟨?_, fun hm => absurd hm hmem, fun _ => ?_⟩
    · simp [is_section_accepted, hacc, hne, hp, hmem]
    · simp [is_section_accepted, hacc, hne, hp]
  | some i =>
    have hget := position_some_get name l i hp
    have hmem : name ∈ l := by
      by_contra hm
      rw [(position_none_iff name l).mpr hm] at hp
      exact Option.noConfusion hp
    refine ⟨?_, fun _ => ?_, fun hnm => absurd hmem hnm⟩
    · simp [is_section_accepted, hacc, hne, hp, hmem]
    · exact ⟨swapRemove l i, by simp [is_section_accepted, hacc, hne, hp],
        swapRemove_count l i name hget⟩

theorem claim6_w :
    (mkPF "" ["A", "B"]).acceptedSections = some ["A", "B"] ∧
    (["A", "B"] : List String) ≠ [] ∧
    (is_section_accepted "A" (mkPF "" ["A", "B"])).1
      = some (decide (("A" : String) ∈ ["A", "B"])) :=
  ⟨rfl, by decide, (claim6_filter_accept.1 _ ["A", "B"] "A" rfl (by decide)).1⟩

/-- C7: without a filter, committing a section overwrites any earlier
entry of the same name in the map (the map insert is last-write-wins),
and concretely a document with two `[S]` sections keeps only the second
one's content under `S`. -/
theorem claim7_last_wins :
    (∀ (m : List (String × Section)) (nm : String) (sec : Section),
      lookupS nm (insertS nm sec m) = some sec) ∧
    (read (mkP "[S]\na = 1\n[S]\nb = 2")).1
      = some [("S", Section.mk [("b", Value.Integer 2)] [])] :=
  ⟨fun m nm sec => lookup_insertS nm sec m, rfl⟩

/-- C8: at end of stream with no section ever opened, the implicit `root`
section is committed exactly when no filter is configured; with an open
section its name is committed instead (never `root`); empty input gives a
single empty `root` section without a filter and an empty map with one. -/
theorem claim8_rootSection :
    (∀ (fuel : Nat) (p p1 : PState) (m : List (String × Section)) (sec : Section),
      next p = (none, p1) →
      (readGo (fuel + 1) p m none sec).1 =
        if p1.errors.isEmpty then
          some (if p1.acceptedSections = none then insertS "root" sec m else m)
        else none) ∧
    (∀ (fuel : Nat) (p p1 : PState) (m : List (String × Section)) (sec : Section)
        (nm : String),
      next p = (none, p1) →
      (readGo (fuel + 1) p m (some nm) sec).1 =
        if p1.errors.isEmpty then some (insertS nm sec m) else none) ∧
    (read (mkP "")).1 = some [("root", Section.mk [] [])] ∧
    (read (mkPF "" ["A"])).1 = some [] := by
  refine ⟨?_, ?_, rfl, rfl⟩
  · intro fuel p p1 m sec h
    rcases hacc : p1.acceptedSections with _ | l <;> simp [readGo, h, finalize, hacc]
  · intro fuel p p1 m sec nm h
    simp [readGo, h, finalize]

theorem claim8_w :
    next (mkP "") = (none, PState.mk [] 0 [] none) ∧
    (readGo 1 (mkP "") [] none emptySection).1 =
      if (PState.mk [] 0 [] none).errors.isEmpty then
        some (if (PState.mk [] 0 [] none).acceptedSections = none then
          insertS "root" emptySection [] else [])
      else none :=
  ⟨rfl, claim8_rootSection.1 0 (mkP "") _ [] emptySection rfl⟩

/-- C9: the row production always succeeds and yields `Element::Row`;
adjacent `|` delimiters give an empty-string cell (`|1||2|` gives the
cells `1`, `` and `2`); trailing whitespace of a cell is trimmed and
`\|`, `\n`, `\\` are unescaped inside cells. -/
theorem claim9_row :
    (∀ p : PState, ∃ cells p1, row p = (some (Element.Row cells), p1)) ∧
    (row (mkP "|1||2|")).1
      = some (Element.Row [Value.String "1", Value.String "", Value.String "2"]) ∧
    (row (mkP "| a\\|b | x\\ny\\\\ |")).1
      = some (Element.Row [Value.String "a|b", Value.String (String.mk ['x', '\n', 'y', '\\'])]) :=
  ⟨fun p => ⟨_, _, rfl⟩, rfl, rfl⟩

/-- C10: the boolean production is a pure literal-prefix match: whenever
the remaining input starts with `true` (resp. `false`) it yields
`Boolean true` (resp. `Boolean false`) and advances by exactly 4
(resp. 5) characters, whatever follows; in particular the value `truex`
parses as `Boolean true` with `x` left unconsumed. -/
theorem claim10_boolean :
    (∀ (p : PState) (tail : List Char), p.rest = 't' :: 'r' :: 'u' :: 'e' :: tail →
      boolean p = (some (Value.Boolean true),
        { p with rest := tail, consumed := p.consumed + 4 })) ∧
    (∀ (p : PState) (tail : List Char),
      p.rest = 'f' :: 'a' :: 'l' :: 's' :: 'e' :: tail →
      boolean p = (some (Value.Boolean false),
        { p with rest := tail, consumed := p.consumed + 5 })) ∧
    value 5 (mkP "truex")
      = (some (Value.Boolean true), PState.mk ['x'] 4 [] none) := by
  refine ⟨?_, ?_, rfl⟩
  · intro p tail h
    obtain ⟨rest, k, errs, acc⟩ := p
    dsimp only at h
    subst h
    simp [boolean, advanceTo, PState.mk.injEq]
    omega
  · intro p tail h
    obtain ⟨rest, k, errs, acc⟩ := p
    dsimp only at h
    subst h
    simp [boolean, advanceTo, PState.mk.injEq]
    omega

theorem claim10_w :
    (PState.mk ('t' :: 'r' :: 'u' :: 'e' :: ['x']) 7 [] none).rest
      = 't' :: 'r' :: 'u' :: 'e' :: ['x'] ∧
    boolean (PState.mk ('t' :: 'r' :: 'u' :: 'e' :: ['x']) 7 [] none)
      = (some (Value.Boolean true),
        { PState.mk ('t' :: 'r' :: 'u' :: 'e' :: ['x']) 7 [] none with
            rest := ['x'],
            consumed := (PState.mk ('t' :: 'r' :: 'u' :: 'e' :: ['x']) 7 [] none).consumed + 4 }) :=
  ⟨rfl, claim10_boolean.1 _ ['x'] rfl⟩

end Ion
